import Mathlib

/-!
Verification development for the ivplan travel-planning backend.

The embedded code comes from two modules of the repository:

* `places/views.py` — the relevance-scoring logic: the Django `Case`
  expressions built by `_build_tourism_boost_case` / `_name_desc_keyword_boost`
  (first matching `When` wins, `default` otherwise) and the inline Python
  scorer `compute_score` used by `PlaceRadiusView` (plain loops that add the
  weight for every match), together with the radius search (haversine test
  plus bounding-box pre-filter).
* `trendengine/engine.py` — the route engine: `haversine`,
  `build_distance_matrix`, `nearest_neighbor_order`, `two_opt`,
  `total_distance`, `optimize_route`.
* `trendengine/views.py` — `RouteOptimizeView.post`, the HTTP endpoint.

Modelling conventions:

* Python strings are `List Char`; case-insensitive containment is substring
  containment after mapping both sides through `Char.toLower`.
* Python floats are modelled by `ℚ` where only field arithmetic and
  comparisons occur (all weights are small decimals, exact in both models),
  and by `ℝ` for the trigonometric geodesy of the radius search.
* The distance matrix (a Python list of lists, symmetric by construction) is
  modelled as a function `ℕ → ℕ → ℚ` together with its dimension `n`;
  `matOf` renders `build_distance_matrix`.
* The unbounded `while improved:` loop of `two_opt` is modelled with an
  explicit `fuel` counter; the theorems quantify over every fuel value or
  hypothesise convergence, so no behaviour is lost.
* The pairwise `haversine` call of the engine is abstracted into a distance
  parameter `d`; no claim about the engine depends on the concrete distance.
-/

/-! ## Strings and case-insensitive containment -/

/-- Python strings, modelled as lists of characters. -/
abbrev Str := List Char

/-- Python's `str.lower()`. -/
def strLower (s : Str) : Str := s.map Char.toLower

/-- `leadsWith needle hay` is true iff `needle` is an initial segment of
`hay` (helper for substring containment). -/
def leadsWith : Str → Str → Bool
  | [], _ => true
  | _ :: _, [] => false
  | a :: as, b :: bs => a == b && leadsWith as bs

/-- Python's `needle in hay` on strings: `needle` occurs contiguously in
`hay`. -/
def isSubstrOf : Str → Str → Bool
  | needle, [] => needle.isEmpty
  | needle, c :: rest => leadsWith needle (c :: rest) || isSubstrOf needle rest

/-- Django's `field__icontains=needle`: case-insensitive containment; a SQL
`NULL` field matches nothing. -/
def fieldIContains (field : Option Str) (needle : Str) : Bool :=
  match field with
  | none => false
  | some s => isSubstrOf (strLower needle) (strLower s)

/-! ## Place records and the weight tables of `places/views.py` -/

/-- The fields of a `Place` that the scoring code reads.  `none` models a SQL
`NULL` / Python `None`. -/
structure PlaceRec where
  name : Option Str
  address : Option Str
  description : Option Str
  category : Option Str
  popularity_score : Option ℚ
deriving DecidableEq

/-- `TOURIST_KEYWORDS` from `places/views.py`. -/
def TOURIST_KEYWORDS : List Str :=
  ["museum", "monument", "temple", "fort", "palace", "park", "national park",
   "zoo", "garden", "viewpoint", "beach", "waterfall", "hill", "lake",
   "histor", "heritage", "memorial", "archaeolog", "cathedral", "basilica",
   "shrine", "observatory", "gallery", "monastery", "gurdwara", "stupa",
   "pagoda", "ruins", "fortress", "riverfront", "island", "cave"].map String.toList

/-- `TOURIST_CATEGORIES` from `places/views.py`. -/
def TOURIST_CATEGORIES : List Str :=
  ["attraction", "tourism", "museum", "monument", "park", "viewpoint",
   "historic", "heritage", "beach", "waterfall", "palace", "fort"].map String.toList

/-- `NOISE_CATEGORIES` from `places/views.py`. -/
def NOISE_CATEGORIES : List Str :=
  ["restaurant", "cafe", "bar", "pub", "fast_food", "food_court"].map String.toList

/-! ## The Django `Case` expressions (first matching `When` wins) -/

/-- Evaluation of a Django `Case(*whens, default=dflt)` expression at a
place: the `then` value of the first `When` whose condition holds, the
default when none holds. -/
def caseFirst : List ((PlaceRec → Bool) × ℚ) → ℚ → PlaceRec → ℚ
  | [], dflt, _ => dflt
  | (cond, w) :: rest, dflt, p => if cond p then w else caseFirst rest dflt p

/-- The `When` list built by `_build_tourism_boost_case`: every tourist
category with weight `20.0`, then every noise category with weight `-10.0`. -/
def tourismWhens : List ((PlaceRec → Bool) × ℚ) :=
  TOURIST_CATEGORIES.map (fun cat => (fun p => fieldIContains p.category cat, (20 : ℚ)))
    ++ NOISE_CATEGORIES.map (fun ncat => (fun p => fieldIContains p.category ncat, (-10 : ℚ)))

/-- `_build_tourism_boost_case` evaluated at a place (Django `Case`
semantics, default `0.0`). -/
def tourism_boost_case (p : PlaceRec) : ℚ := caseFirst tourismWhens 0 p

/-- The `When` list built by `_name_desc_keyword_boost`: for each tourist
keyword, name OR address OR description contains it, weight `3.0`. -/
def keywordWhens : List ((PlaceRec → Bool) × ℚ) :=
  TOURIST_KEYWORDS.map (fun kw =>
    (fun p => fieldIContains p.name kw || fieldIContains p.address kw
        || fieldIContains p.description kw, (3 : ℚ)))

/-- `_name_desc_keyword_boost` evaluated at a place (Django `Case`
semantics, default `0.0`). -/
def keyword_boost_case (p : PlaceRec) : ℚ := caseFirst keywordWhens 0 p

/-! ## The inline scorer `compute_score` of `PlaceRadiusView` -/

/-- `" ".join([str(p.name or ""), str(p.address or ""), str(p.description or "")]).lower()`. -/
def nameAddrDesc (p : PlaceRec) : Str :=
  strLower (p.name.getD [] ++ [' '] ++ p.address.getD [] ++ [' '] ++ p.description.getD [])

/-- The category part of `compute_score`: `+20.0` for **every** tourist
category contained in `(p.category or "").lower()` (a plain loop, no
short-circuit, and no noise penalty at all). -/
def catBoostOf (p : PlaceRec) : ℚ :=
  TOURIST_CATEGORIES.foldl
    (fun acc cat => if isSubstrOf cat (strLower (p.category.getD [])) then acc + 20 else acc) 0

/-- The keyword part of `compute_score`: `+3.0` for **every** tourist keyword
contained in the joined lower-cased name/address/description. -/
def kwBoostOf (p : PlaceRec) : ℚ :=
  TOURIST_KEYWORDS.foldl
    (fun acc kw => if isSubstrOf kw (nameAddrDesc p) then acc + 3 else acc) 0

/-- `compute_score` from `PlaceRadiusView.get_queryset`: popularity (0 when
null) plus one accumulator threaded through the category loop and then the
keyword loop. -/
def compute_score (p : PlaceRec) : ℚ :=
  let pop := p.popularity_score.getD 0
  let boost :=
    TOURIST_KEYWORDS.foldl
      (fun acc kw => if isSubstrOf kw (nameAddrDesc p) then acc + 3 else acc)
      (TOURIST_CATEGORIES.foldl
        (fun acc cat => if isSubstrOf cat (strLower (p.category.getD [])) then acc + 20 else acc)
        0)
  pop + boost

/-- The ordered `(substring, weight)` rule table that `tourismWhens`
realises: tourist categories at `+20.0` before noise categories at `-10.0`. -/
def categoryRules : List (Str × ℚ) :=
  TOURIST_CATEGORIES.map (fun cat => (cat, (20 : ℚ)))
    ++ NOISE_CATEGORIES.map (fun ncat => (ncat, (-10 : ℚ)))

/-! ## Concrete places used as test inputs -/

/-- A place whose name matches two tourist keywords ("fort" and "museum"). -/
def fortMuseumPlace : PlaceRec :=
  { name := some "Fort Museum".toList, address := none, description := none,
    category := none, popularity_score := none }

/-- A place with category "restaurant" and no other data. -/
def restaurantPlace : PlaceRec :=
  { name := none, address := none, description := none,
    category := some "restaurant".toList, popularity_score := none }

/-- A place with category "museum" and no other data. -/
def museumPlace : PlaceRec :=
  { name := none, address := none, description := none,
    category := some "museum".toList, popularity_score := none }

/-- A place whose category matches two tourist category rules ("park" and
"historic"). -/
def historicParkPlace : PlaceRec :=
  { name := none, address := none, description := none,
    category := some "historic park".toList, popularity_score := none }

/-! ## Scoring lemmas -/

/-- A fold that adds `w` for every element satisfying `f` computes
`init + w * (number of matching elements)`. -/
theorem foldl_if_add_count (f : Str → Bool) (w : ℚ) (L : List Str) (init : ℚ) :
    L.foldl (fun acc s => if f s then acc + w else acc) init
      = init + w * ((L.filter f).length : ℚ) := by
  induction L generalizing init with
  | nil => simp
  | cons x xs ih =>
    by_cases h : f x
    · simp only [List.foldl_cons, List.filter_cons, h, if_pos, ih, List.length_cons]
      push_cast
      ring
    · simp only [List.foldl_cons, List.filter_cons, h, ih]
      simp

/-- A Django `Case` whose `When`s are built from a rule table by a uniform
test evaluates to the weight of the first matching rule (default if none). -/
theorem caseFirst_map_eq_find (rules : List (Str × ℚ)) (dflt : ℚ) (p : PlaceRec)
    (test : PlaceRec → Str → Bool) :
    caseFirst (rules.map (fun r => (fun q => test q r.1, r.2))) dflt p
      = ((rules.find? (fun r => test p r.1)).map Prod.snd).getD dflt := by
  induction rules with
  | nil => simp [caseFirst]
  | cons r rs ih =>
    by_cases h : test p r.1
    · simp [caseFirst, List.find?, h]
    · simp [caseFirst, List.find?, h, ih]

/-- The tourism `When` list is the uniform rendering of `categoryRules`. -/
theorem tourismWhens_eq_map :
    tourismWhens
      = categoryRules.map (fun r => (fun q => fieldIContains q.category r.1, r.2)) := by
  simp only [tourismWhens, categoryRules, List.map_append, List.map_map]
  rfl

/-- C1 counterexample: the claim says the keyword term is the sum of the
weights of **all** matching keywords for every place.  For the search view's
keyword boost (`_name_desc_keyword_boost`, a Django `Case`), the place named
"Fort Museum" matches two keywords ("museum" and "fort"), the sum of whose
weights is `6.0`, yet the `Case` yields only `3.0` (first match wins). -/
theorem c1_counterexample :
    keyword_boost_case fortMuseumPlace = 3
    ∧ kwBoostOf fortMuseumPlace = 6
    ∧ keyword_boost_case fortMuseumPlace ≠ kwBoostOf fortMuseumPlace := by
  refine ⟨?_, ?_, ?_⟩
  · simp only [keyword_boost_case, keywordWhens, TOURIST_KEYWORDS, List.map_cons, List.map_nil,
      caseFirst]
    simp +decide [fortMuseumPlace, fieldIContains]
  · simp only [kwBoostOf, TOURIST_KEYWORDS, List.map_cons, List.map_nil, List.foldl_cons,
      List.foldl_nil]
    simp +decide [nameAddrDesc, fortMuseumPlace]
    norm_num
  · simp only [keyword_boost_case, keywordWhens, kwBoostOf, TOURIST_KEYWORDS, List.map_cons,
      List.map_nil, caseFirst, List.foldl_cons, List.foldl_nil]
    simp +decide [nameAddrDesc, fortMuseumPlace, fieldIContains]

/-- C1 (amended): in the radius view's `compute_score` the keyword term is
additive — the score is the popularity plus `20` for every matching tourist
category plus `3` for every matching keyword, summed over **all** matches of
the respective tables; the search view's `Case`-based keyword boost instead
contributes `3.0` at most once (see the counterexample). -/
theorem c1_keyword_term_additive :
    ∀ p : PlaceRec, compute_score p
      = p.popularity_score.getD 0
        + 20 * ((TOURIST_CATEGORIES.filter
            (fun cat => isSubstrOf cat (strLower (p.category.getD [])))).length : ℚ)
        + 3 * ((TOURIST_KEYWORDS.filter
            (fun kw => isSubstrOf kw (nameAddrDesc p))).length : ℚ) := by
  intro p
  unfold compute_score
  rw [foldl_if_add_count, foldl_if_add_count]
  ring

/-- C2 counterexample: the claim says the category term is decided by the
first matching rule with no summing, `-10.0` for category "restaurant" under
the default table.  In the radius view's `compute_score` (cited by the
claim) the category term of a "restaurant" place is `0.0` (no noise penalty
exists there at all), its whole score is `0.0`, and category weights are
summed: a "historic park" category collects `40.0` from two rules.  The
`Case`-based term (also cited) is `-10.0`, so the two cited code paths
disagree and the claim is false as a statement about every place. -/
theorem c2_counterexample :
    catBoostOf restaurantPlace = 0
    ∧ compute_score restaurantPlace = 0
    ∧ catBoostOf historicParkPlace = 40
    ∧ tourism_boost_case restaurantPlace = -10 := by
  refine ⟨?_, ?_, ?_, ?_⟩
  · simp only [catBoostOf, TOURIST_CATEGORIES, List.map_cons, List.map_nil, List.foldl_cons,
      List.foldl_nil]
    simp +decide [restaurantPlace]
  · simp only [compute_score, TOURIST_CATEGORIES, TOURIST_KEYWORDS, List.map_cons, List.map_nil,
      List.foldl_cons, List.foldl_nil]
    simp +decide [restaurantPlace, nameAddrDesc]
  · simp only [catBoostOf, TOURIST_CATEGORIES, List.map_cons, List.map_nil, List.foldl_cons,
      List.foldl_nil]
    simp +decide [historicParkPlace]
    norm_num
  · simp only [tourism_boost_case, tourismWhens, TOURIST_CATEGORIES, NOISE_CATEGORIES,
      List.map_cons, List.map_nil, List.cons_append, List.nil_append, caseFirst]
    simp +decide [restaurantPlace, fieldIContains]

/-- C2 (amended): the search view's `Case` built by
`_build_tourism_boost_case` does implement first-match category scoring: for
every place it returns the weight of the first matching rule of the ordered
table `categoryRules` (tourist rules at `+20.0` before noise rules at
`-10.0`) and `0.0` when none matches; under that table "museum" gets `+20.0`
and "restaurant" gets `-10.0`.  The radius view's `compute_score` does not
follow this rule (see the counterexample). -/
theorem c2_category_first_match :
    (∀ p : PlaceRec, tourism_boost_case p
        = ((categoryRules.find? (fun r => fieldIContains p.category r.1)).map Prod.snd).getD 0)
    ∧ tourism_boost_case museumPlace = 20
    ∧ tourism_boost_case restaurantPlace = -10 := by
  refine ⟨?_, ?_, ?_⟩
  · intro p
    rw [tourism_boost_case, tourismWhens_eq_map, caseFirst_map_eq_find]
  · simp only [tourism_boost_case, tourismWhens, TOURIST_CATEGORIES, NOISE_CATEGORIES,
      List.map_cons, List.map_nil, List.cons_append, List.nil_append, caseFirst]
    simp +decide [museumPlace, fieldIContains]
  · simp only [tourism_boost_case, tourismWhens, TOURIST_CATEGORIES, NOISE_CATEGORIES,
      List.map_cons, List.map_nil, List.cons_append, List.nil_append, caseFirst]
    simp +decide [restaurantPlace, fieldIContains]

/-! ## The route engine of `trendengine/engine.py`

The distance matrix is a function `D : ℕ → ℕ → ℚ` (plus its dimension where
the Python code takes `len`); `matOf` below renders `build_distance_matrix`.
The `while improved:` loop of `two_opt` is given an explicit `fuel`. -/

/-- `total_distance`: sum of consecutive-edge distances of an open path
(`0.0` for empty or singleton orders). -/
def total_distance (D : ℕ → ℕ → ℚ) : List ℕ → ℚ
  | x :: y :: rest => D x y + total_distance D (y :: rest)
  | _ => 0

/-- The slice assignment `order[i:j+1] = reversed(order[i:j+1])`. -/
def reverseSegment (ord : List ℕ) (i j : ℕ) : List ℕ :=
  ord.take i ++ ((ord.drop i).take (j + 1 - i)).reverse ++ ord.drop (j + 1)

/-- The body of the inner 2-opt loop: read `a,b,c,d` from the current order,
reverse the segment when the exchanged edges are strictly shorter; the flag
records whether a reversal happened. -/
def twoOptSwap (D : ℕ → ℕ → ℚ) (ord : List ℕ) (i j : ℕ) : List ℕ × Bool :=
  let a := ord.getD (i - 1) 0
  let b := ord.getD i 0
  let c := ord.getD j 0
  let d := ord.getD (j + 1) 0
  if D a c + D b d < D a b + D c d then (reverseSegment ord i j, true) else (ord, false)

/-- The index pairs visited by one sweep:
`for i in range(1, n-2): for j in range(i+1, n-1)`. -/
def pairList (n : ℕ) : List (ℕ × ℕ) :=
  (List.range' 1 (n - 3)).flatMap
    (fun i => (List.range' (i + 1) (n - 2 - i)).map (fun j => (i, j)))

/-- One full sweep of the 2-opt double loop, threading the mutated order and
the `improved` flag through every index pair. -/
def sweep (D : ℕ → ℕ → ℚ) (n : ℕ) (ord : List ℕ) : List ℕ × Bool :=
  (pairList n).foldl
    (fun st p =>
      let r := twoOptSwap D st.1 p.1 p.2
      (r.1, st.2 || r.2))
    (ord, false)

/-- The `while improved:` loop of `two_opt`, with explicit fuel: repeat
sweeps while a sweep reports an improvement. -/
def twoOptLoop (D : ℕ → ℕ → ℚ) (n : ℕ) : ℕ → List ℕ → List ℕ
  | 0, ord => ord
  | fuel + 1, ord =>
    let r := sweep D n ord
    if r.2 then twoOptLoop D n fuel r.1 else r.1

/-- `two_opt` from `trendengine/engine.py`: orders of length `< 4` are
returned unchanged, otherwise sweeps repeat until none improves (or the fuel
of the model runs out). -/
def two_opt (D : ℕ → ℕ → ℚ) (fuel : ℕ) (ord : List ℕ) : List ℕ :=
  if ord.length < 4 then ord else twoOptLoop D ord.length fuel ord

/-- The inner selection loop of `nearest_neighbor_order`
(`for j in range(n): if not visited[j] and D[current][j] < best_d: ...`),
folded over the remaining candidate indices.  `best = none` models
`next_node is None` / `best_d == inf`; the invariant `best_d =
D[current][best]` of the Python code is inlined into the comparison. -/
def scanMin (D : ℕ → ℕ → ℚ) (cur : ℕ) (vis : ℕ → Bool) : List ℕ → Option ℕ → Option ℕ
  | [], best => best
  | j :: js, best =>
    let takeIt := !vis j && (match best with
      | none => true
      | some m => decide (D cur j < D cur m))
    scanMin D cur vis js (if takeIt then some j else best)

/-- One selection step: the unvisited index at minimum distance from
`cur`, the first such index when there are ties, `none` when everything is
visited. -/
def selectNext (D : ℕ → ℕ → ℚ) (n cur : ℕ) (vis : ℕ → Bool) : Option ℕ :=
  scanMin D cur vis (List.range n) none

/-- The boolean `visited` array, modelled as a function; `setV vis m` is
`visited[m] = True`. -/
def setV (vis : ℕ → Bool) (m : ℕ) : ℕ → Bool := fun j => if j = m then true else vis j

/-- The `for _ in range(n-1)` loop of `nearest_neighbor_order`: repeatedly
append the nearest unvisited index (stopping early if none is found, the
`break`). -/
def nnAux (D : ℕ → ℕ → ℚ) (n : ℕ) : ℕ → ℕ → (ℕ → Bool) → List ℕ
  | 0, _, _ => []
  | k + 1, cur, vis =>
    match selectNext D n cur vis with
    | none => []
    | some nxt => nxt :: nnAux D n k nxt (setV vis nxt)

/-- `nearest_neighbor_order` from `trendengine/engine.py` (`n` is the
dimension of the matrix, `len(distance_matrix)` in Python). -/
def nearest_neighbor_order (D : ℕ → ℕ → ℚ) (n start : ℕ) : List ℕ :=
  if n = 0 then [] else
    start :: nnAux D n (n - 1) start (setV (fun _ => false) start)

/-- `build_distance_matrix` rendered as a function matrix: diagonal `0.0`
(from the zero initialisation), and for `i ≠ j` the pairwise distance `d` of
the points, computed once per unordered pair with `i < j` and mirrored. -/
def matOf {α : Type} (d : α → α → ℚ) (points : List α) : ℕ → ℕ → ℚ := fun i j =>
  if i = j then 0
  else
    match points[i]?, points[j]? with
    | some p, some q => if i < j then d p q else d q p
    | _, _ => 0

/-- Python's `round(x, 3)` (the half-even tie rule of float `round` is
modelled by Mathlib's `round`; no claim depends on exact ties). -/
def round3 (x : ℚ) : ℚ := ((round (x * 1000) : ℤ) : ℚ) / 1000

/-- The result dictionary of `optimize_route`. -/
structure RouteResult where
  order : List ℕ
  optimized_order : List ℕ
  total_distance_km : ℚ
deriving DecidableEq

/-- `optimize_route` from `trendengine/engine.py`, with the pairwise
haversine abstracted into `d`.  `two_opt` receives `initial.copy()`; in this
pure rendering the copy is value passing, and the `order` field is the
construction result itself. -/
def optimize_route {α : Type} (d : α → α → ℚ) (fuel : ℕ) (points : List α)
    (start_index : ℕ) : RouteResult :=
  if points.isEmpty then { order := [], optimized_order := [], total_distance_km := 0 }
  else
    let dm := matOf d points
    let initial := nearest_neighbor_order dm points.length start_index
    let improved := two_opt dm fuel initial
    { order := initial, optimized_order := improved,
      total_distance_km := round3 (total_distance dm improved) }

/-! ## The HTTP endpoint `RouteOptimizeView.post` of `trendengine/views.py` -/

/-- The response of the route-optimize endpoint: an error with message and
HTTP status, or a route (the input places in visiting order). -/
inductive RouteResp (β : Type) where
  | err (msg : Str) (status : ℕ)
  | ok (path : List β)
deriving DecidableEq

/-- Python's `min(unvisited, key=f)`: the first element attaining the
minimum (comparisons keep the incumbent unless strictly smaller). -/
def argminFirst {β : Type} (f : β → ℚ) : List β → Option β
  | [] => none
  | x :: xs => some (xs.foldl (fun best y => if f y < f best then y else best) x)

/-- The greedy `while unvisited:` loop of the endpoint: append the nearest
unvisited place and `remove` it (first occurrence, value equality). -/
def nnPath {β : Type} [DecidableEq β] (d : β → β → ℚ) : ℕ → β → List β → List β
  | 0, _, _ => []
  | fuel + 1, last, unvisited =>
    match argminFirst (fun p => d last p) unvisited with
    | none => []
    | some nxt => nxt :: nnPath d fuel nxt (unvisited.erase nxt)

/-- `RouteOptimizeView.post`: reject request bodies with fewer than two
places with the 400 error `"Need at least 2 places"`, otherwise run the
nearest-neighbour walk starting from the first place given. -/
def route_optimize_post {β : Type} [DecidableEq β] (d : β → β → ℚ) (places : List β) :
    RouteResp β :=
  match places with
  | p :: q :: rest => .ok (p :: nnPath d (q :: rest).length p (q :: rest))
  | _ => .err "Need at least 2 places".toList 400

/-! ## A concrete distance matrix exercising 2-opt -/

/-- A symmetric matrix on indices 0..3 (distance 1 between 0–1 and 2–3,
distance 5 otherwise, 0 on the diagonal) on which 2-opt finds exactly one
improving reversal for the order `[0, 2, 1, 3]`. -/
def Dex : ℕ → ℕ → ℚ := fun i j =>
  if (i, j) ∈ ([(0, 1), (1, 0), (2, 3), (3, 2)] : List (ℕ × ℕ)) then 1
  else if i = j then 0 else 5

/-! ## 2-opt: a non-improving sweep leaves the order unchanged -/

/-- When the swap at `(i, j)` reports no improvement it keeps the order. -/
theorem twoOptSwap_keep (D : ℕ → ℕ → ℚ) (ord : List ℕ) (i j : ℕ)
    (h : (twoOptSwap D ord i j).2 = false) : (twoOptSwap D ord i j).1 = ord := by
  simp only [twoOptSwap] at h ⊢
  split at h
  · simp at h
  · next hc => rw [if_neg hc]

/-- If a 2-opt sweep fold ends with the `improved` flag still false, no swap
fired: the order is unchanged and the flag was false to begin with. -/
theorem sweepFold_false (D : ℕ → ℕ → ℚ) :
    ∀ (ps : List (ℕ × ℕ)) (st : List ℕ × Bool),
      (ps.foldl (fun st p =>
        let r := twoOptSwap D st.1 p.1 p.2
        (r.1, st.2 || r.2)) st).2 = false →
      (ps.foldl (fun st p =>
        let r := twoOptSwap D st.1 p.1 p.2
        (r.1, st.2 || r.2)) st).1 = st.1 ∧ st.2 = false := by
  intro ps
  induction ps with
  | nil => exact fun st h => ⟨rfl, h⟩
  | cons p ps ih =>
    intro st h
    simp only [List.foldl_cons] at h ⊢
    obtain ⟨h1, h2⟩ := ih _ h
    have hb : st.2 = false ∧ (twoOptSwap D st.1 p.1 p.2).2 = false := by simpa using h2
    exact ⟨by rw [h1]; exact twoOptSwap_keep _ _ _ _ hb.2, hb.1⟩

/-- A sweep that reports no improvement returns its input order. -/
theorem sweep_false (D : ℕ → ℕ → ℚ) (n : ℕ) (ord : List ℕ)
    (h : (sweep D n ord).2 = false) : (sweep D n ord).1 = ord :=
  (sweepFold_false D (pairList n) (ord, false) h).1

/-- C7: `two_opt` is idempotent at convergence — if the order produced by
`two_opt` has run to a local optimum (one more sweep over it finds no
improving move), then running `two_opt` on that output (with any positive
fuel) returns it unchanged. -/
theorem c7_two_opt_idempotent (D : ℕ → ℕ → ℚ) (ord : List ℕ) (fuel fuel' : ℕ)
    (hf : 1 ≤ fuel')
    (hconv : (sweep D (two_opt D fuel ord).length (two_opt D fuel ord)).2 = false) :
    two_opt D fuel' (two_opt D fuel ord) = two_opt D fuel ord := by
  generalize hout : two_opt D fuel ord = out at hconv ⊢
  unfold two_opt
  by_cases hlen : out.length < 4
  · simp [hlen]
  · simp only [hlen, if_false]
    obtain ⟨fuel2, rfl⟩ : ∃ k, fuel' = k + 1 := ⟨fuel' - 1, by omega⟩
    unfold twoOptLoop
    simp only [hconv]
    exact sweep_false _ _ _ hconv

/-- C7 witness: on the matrix `Dex`, `two_opt` turns `[0, 2, 1, 3]` into a
converged tour, and re-running `two_opt` on that output returns it. -/
theorem c7_witness :
    1 ≤ 1
    ∧ (sweep Dex (two_opt Dex 2 [0, 2, 1, 3]).length (two_opt Dex 2 [0, 2, 1, 3])).2 = false
    ∧ two_opt Dex 1 (two_opt Dex 2 [0, 2, 1, 3]) = two_opt Dex 2 [0, 2, 1, 3] := by
  have h2 : (sweep Dex (two_opt Dex 2 [0, 2, 1, 3]).length (two_opt Dex 2 [0, 2, 1, 3])).2
      = false := by
    simp only [two_opt, twoOptLoop, sweep, pairList, twoOptSwap, reverseSegment]
    norm_num [Dex, List.range']
  exact ⟨le_refl 1, h2, c7_two_opt_idempotent Dex [0, 2, 1, 3] 2 1 (le_refl 1) h2⟩

/-- C6: contrary to the claim, `two_opt` imposes no safety iteration cap and
returns no convergence report: its `while improved:` loop runs sweeps until
one finds no improving move and the return value is the bare tour.  On the
matrix `Dex` and input `[0, 2, 1, 3]` it performs its single improving
reversal and returns the plain list `[0, 1, 2, 3]`, whose further sweep
reports no improvement — there is no cap to exceed and no "did not fully
converge" signal in the result. -/
theorem c6_no_cap_evaluation :
    two_opt Dex 2 [0, 2, 1, 3] = [0, 1, 2, 3]
    ∧ (sweep Dex 4 [0, 1, 2, 3]).2 = false := by
  constructor
  · simp only [two_opt, twoOptLoop, sweep, pairList, twoOptSwap, reverseSegment]
    norm_num [Dex, List.range']
  · simp only [sweep, pairList, twoOptSwap, reverseSegment]
    norm_num [Dex, List.range']

/-! ## The HTTP endpoint rejects short inputs (C8) -/

/-- C8: a route-optimization request whose places list has fewer than 2
entries is answered with the 400 error `"Need at least 2 places"`; no route
is ever returned for such an input. -/
theorem c8_insufficient_input {β : Type} [DecidableEq β] (d : β → β → ℚ) (places : List β)
    (h : places.length < 2) :
    route_optimize_post d places = .err "Need at least 2 places".toList 400 := by
  match places with
  | [] => rfl
  | [p] => rfl
  | p :: q :: rest => exact absurd h (by simp)

/-- C8 witness: the singleton request `[7]` is rejected with the 400 error. -/
theorem c8_witness :
    ([7] : List ℕ).length < 2
    ∧ route_optimize_post (fun _ _ : ℕ => (0 : ℚ)) [7]
        = .err "Need at least 2 places".toList 400 :=
  ⟨by decide, c8_insufficient_input (fun _ _ : ℕ => (0 : ℚ)) [7] (by decide)⟩

/-! ## `optimize_route`: the reported initial order (C9) and the
single-point case (C10) -/

/-- C9: for any non-empty input, the `order` field of `optimize_route` is
exactly the nearest-neighbour construction over the freshly built matrix,
and the improvement step computes from that same construction — because
`two_opt` receives `initial.copy()`, the 2-opt reversals never touch the
reported initial tour. -/
theorem c9_order_field_construction {α : Type} (d : α → α → ℚ) (fuel : ℕ) (points : List α)
    (start : ℕ) (h : points ≠ []) :
    (optimize_route d fuel points start).order
      = nearest_neighbor_order (matOf d points) points.length start
    ∧ (optimize_route d fuel points start).optimized_order
      = two_opt (matOf d points) fuel
          (nearest_neighbor_order (matOf d points) points.length start) := by
  have hne : points.isEmpty = false := by simpa [List.isEmpty_iff] using h
  constructor <;> simp [optimize_route, hne]

/-- C9 witness: concrete instance on the one-point list `[0]` with the zero
distance function. -/
theorem c9_witness :
    (([0] : List ℕ) ≠ [])
    ∧ ((optimize_route (fun _ _ : ℕ => (0 : ℚ)) 1 [0] 0).order
        = nearest_neighbor_order (matOf (fun _ _ : ℕ => (0 : ℚ)) [0]) ([0] : List ℕ).length 0
      ∧ (optimize_route (fun _ _ : ℕ => (0 : ℚ)) 1 [0] 0).optimized_order
        = two_opt (matOf (fun _ _ : ℕ => (0 : ℚ)) [0]) 1
            (nearest_neighbor_order (matOf (fun _ _ : ℕ => (0 : ℚ)) [0])
              ([0] : List ℕ).length 0)) :=
  ⟨by decide, c9_order_field_construction (fun _ _ : ℕ => (0 : ℚ)) 1 [0] 0 (by decide)⟩

/-- C10: on a single-point list `optimize_route` returns
`{order := [0], optimized_order := [0], total_distance_km := 0.0}` without
any error — the construction emits just the start index, `two_opt` returns
length-1 tours unchanged, and the open-path length of a singleton is zero
(the HTTP endpoint, by contrast, rejects such an input — see C8). -/
theorem c10_single_point {α : Type} (d : α → α → ℚ) (fuel : ℕ) (p : α) :
    optimize_route d fuel [p] 0
      = { order := [0], optimized_order := [0], total_distance_km := 0 } := by
  simp [optimize_route, nearest_neighbor_order, nnAux, two_opt, total_distance, round3]

/-! ## Specification of the nearest-neighbour construction (C4) -/

/-- `m` is a valid greedy choice from `cur` among the indices `< n`
satisfying `U` (the not-yet-visited ones): it is unvisited, at minimum
distance from `cur`, and the lowest index among the minimisers (every
smaller unvisited index is strictly farther — the Python loop keeps the
first minimum found because its comparison is strict). -/
def IsNearestChoice (D : ℕ → ℕ → ℚ) (n cur m : ℕ) (U : ℕ → Prop) : Prop :=
  m < n ∧ U m ∧ (∀ j, j < n → U j → D cur m ≤ D cur j)
    ∧ ∀ j, j < m → U j → D cur m < D cur j

/-- The greedy chain property: each element of the list is a nearest
unvisited choice from the previous one, the visited set growing along the
list. -/
inductive NNChain (D : ℕ → ℕ → ℚ) (n : ℕ) : ℕ → (ℕ → Prop) → List ℕ → Prop where
  | nil (cur : ℕ) (U : ℕ → Prop) : NNChain D n cur U []
  | cons (cur : ℕ) (U : ℕ → Prop) (m : ℕ) (rest : List ℕ)
      (hm : IsNearestChoice D n cur m U)
      (hrest : NNChain D n m (fun j => U j ∧ j ≠ m) rest) :
      NNChain D n cur U (m :: rest)

/-- Characterisation of the inner selection loop over an ascending index
range: it returns `none` only if it started with no incumbent and every
candidate is visited; and when it returns `some m`, either `m` is the
untouched incumbent dominating all unvisited candidates, or `m` is an
unvisited candidate that is minimal, first among ties, and strictly better
than the incumbent. -/
theorem scanMin_spec (D : ℕ → ℕ → ℚ) (cur : ℕ) (vis : ℕ → Bool) :
    ∀ (k a : ℕ) (best : Option ℕ),
      (scanMin D cur vis (List.range' a k) best = none →
        best = none ∧ ∀ j, a ≤ j → j < a + k → vis j = true)
      ∧ (∀ m, scanMin D cur vis (List.range' a k) best = some m →
          (best = some m ∧ ∀ j, a ≤ j → j < a + k → vis j = false → D cur m ≤ D cur j)
          ∨ (a ≤ m ∧ m < a + k ∧ vis m = false
             ∧ (∀ j, a ≤ j → j < a + k → vis j = false → D cur m ≤ D cur j)
             ∧ (∀ j, a ≤ j → j < m → vis j = false → D cur m < D cur j)
             ∧ ∀ m₀, best = some m₀ → D cur m < D cur m₀)) := by
  intro k
  induction k with
  | zero =>
    intro a best
    constructor
    · intro h
      exact ⟨h, fun j h1 h2 => absurd h2 (by omega)⟩
    · intro m h
      exact Or.inl ⟨h, fun j h1 h2 => absurd h2 (by omega)⟩
  | succ k ih =>
    intro a best
    rw [List.range'_succ]
    by_cases hva : vis a = true
    · -- candidate `a` is visited: the incumbent passes through unchanged
      have hstep : scanMin D cur vis (a :: List.range' (a + 1) k) best
          = scanMin D cur vis (List.range' (a + 1) k) best := by
        simp [scanMin, hva]
      rw [hstep]
      constructor
      · intro h
        obtain ⟨hb, hall⟩ := (ih (a + 1) best).1 h
        refine ⟨hb, fun j h1 h2 => ?_⟩
        by_cases hj : j = a
        · rw [hj]; exact hva
        · exact hall j (by omega) (by omega)
      · intro m h
        rcases (ih (a + 1) best).2 m h with ⟨hb, hmin⟩ | ⟨h1, h2, h3, h4, h5, h6⟩
        · refine Or.inl ⟨hb, fun j hj1 hj2 hju => ?_⟩
          by_cases hj : j = a
          · rw [hj] at hju; rw [hva] at hju; exact absurd hju (by simp)
          · exact hmin j (by omega) (by omega) hju
        · refine Or.inr ⟨by omega, by omega, h3, ?_, ?_, h6⟩
          · intro j hj1 hj2 hju
            by_cases hj : j = a
            · rw [hj] at hju; rw [hva] at hju; exact absurd hju (by simp)
            · exact h4 j (by omega) (by omega) hju
          · intro j hj1 hj2 hju
            by_cases hj : j = a
            · rw [hj] at hju; rw [hva] at hju; exact absurd hju (by simp)
            · exact h5 j (by omega) hj2 hju
    · -- candidate `a` is unvisited
      have hva' : vis a = false := by revert hva; cases vis a <;> simp
      match best with
      | none =>
        have hstep : scanMin D cur vis (a :: List.range' (a + 1) k) none
            = scanMin D cur vis (List.range' (a + 1) k) (some a) := by
          simp [scanMin, hva']
        rw [hstep]
        constructor
        · intro h
          obtain ⟨hb, _⟩ := (ih (a + 1) (some a)).1 h
          exact absurd hb (by simp)
        · intro m h
          rcases (ih (a + 1) (some a)).2 m h with ⟨hb, hmin⟩ | ⟨h1, h2, h3, h4, h5, h6⟩
          · have hma : m = a := by injection hb.symm
            subst hma
            refine Or.inr ⟨le_refl m, by omega, hva', ?_, ?_, ?_⟩
            · intro j hj1 hj2 hju
              by_cases hj : j = m
              · rw [hj]
              · exact hmin j (by omega) (by omega) hju
            · intro j hj1 hj2 _
              omega
            · intro m₀ hm₀
              exact absurd hm₀ (by simp)
          · have hma : D cur m < D cur a := h6 a rfl
            refine Or.inr ⟨by omega, by omega, h3, ?_, ?_, ?_⟩
            · intro j hj1 hj2 hju
              by_cases hj : j = a
              · rw [hj]; exact le_of_lt hma
              · exact h4 j (by omega) (by omega) hju
            · intro j hj1 hj2 hju
              by_cases hj : j = a
              · rw [hj]; exact hma
              · exact h5 j (by omega) hj2 hju
            · intro m₀ hm₀
              exact absurd hm₀ (by simp)
      | some m₀ =>
        by_cases hlt : D cur a < D cur m₀
        · have hstep : scanMin D cur vis (a :: List.range' (a + 1) k) (some m₀)
              = scanMin D cur vis (List.range' (a + 1) k) (some a) := by
            simp [scanMin, hva', hlt]
          rw [hstep]
          constructor
          · intro h
            obtain ⟨hb, _⟩ := (ih (a + 1) (some a)).1 h
            exact absurd hb (by simp)
          · intro m h
            rcases (ih (a + 1) (some a)).2 m h with ⟨hb, hmin⟩ | ⟨h1, h2, h3, h4, h5, h6⟩
            · have hma : m = a := by injection hb.symm
              subst hma
              refine Or.inr ⟨le_refl m, by omega, hva', ?_, ?_, ?_⟩
              · intro j hj1 hj2 hju
                by_cases hj : j = m
                · rw [hj]
                · exact hmin j (by omega) (by omega) hju
              · intro j hj1 hj2 _
                omega
              · intro n₀ hn₀
                have : n₀ = m₀ := (Option.some.inj hn₀).symm
                rw [this]; exact hlt
            · have hma : D cur m < D cur a := h6 a rfl
              refine Or.inr ⟨by omega, by omega, h3, ?_, ?_, ?_⟩
              · intro j hj1 hj2 hju
                by_cases hj : j = a
                · rw [hj]; exact le_of_lt hma
                · exact h4 j (by omega) (by omega) hju
              · intro j hj1 hj2 hju
                by_cases hj : j = a
                · rw [hj]; exact hma
                · exact h5 j (by omega) hj2 hju
              · intro n₀ hn₀
                have : n₀ = m₀ := (Option.some.inj hn₀).symm
                rw [this]; exact lt_trans hma hlt
        · have hstep : scanMin D cur vis (a :: List.range' (a + 1) k) (some m₀)
              = scanMin D cur vis (List.range' (a + 1) k) (some m₀) := by
            simp [scanMin, hva', hlt]
          rw [hstep]
          constructor
          · intro h
            obtain ⟨hb, _⟩ := (ih (a + 1) (some m₀)).1 h
            exact absurd hb (by simp)
          · intro m h
            rcases (ih (a + 1) (some m₀)).2 m h with ⟨hb, hmin⟩ | ⟨h1, h2, h3, h4, h5, h6⟩
            · have hmm : m₀ = m := by injection hb
              refine Or.inl ⟨hb, fun j hj1 hj2 hju => ?_⟩
              by_cases hj : j = a
              · rw [hj]; rw [← hmm]; exact le_of_not_lt hlt
              · exact hmin j (by omega) (by omega) hju
            · have hma : D cur m < D cur m₀ := h6 m₀ rfl
              have hmla : D cur m ≤ D cur a := le_of_lt (lt_of_lt_of_le hma (le_of_not_lt hlt))
              refine Or.inr ⟨by omega, by omega, h3, ?_, ?_, h6⟩
              · intro j hj1 hj2 hju
                by_cases hj : j = a
                · rw [hj]; exact hmla
                · exact h4 j (by omega) (by omega) hju
              · intro j hj1 hj2 hju
                by_cases hj : j = a
                · rw [hj]; exact lt_of_lt_of_le hma (le_of_not_lt hlt)
                · exact h5 j (by omega) hj2 hju

/-- `selectNext` returns `none` exactly when every index `< n` is visited,
and otherwise the nearest unvisited index (lowest index among ties). -/
theorem selectNext_spec (D : ℕ → ℕ → ℚ) (n cur : ℕ) (vis : ℕ → Bool) :
    (selectNext D n cur vis = none ∧ ∀ j, j < n → vis j = true)
    ∨ ∃ m, selectNext D n cur vis = some m
        ∧ IsNearestChoice D n cur m (fun j => vis j = false) := by
  have hspec := scanMin_spec D cur vis n 0 none
  rw [← List.range_eq_range'] at hspec
  rcases hres : selectNext D n cur vis with _ | m
  · unfold selectNext at hres
    obtain ⟨_, hall⟩ := hspec.1 hres
    exact Or.inl ⟨rfl, fun j hj => hall j (Nat.zero_le j) (by omega)⟩
  · unfold selectNext at hres
    rcases hspec.2 m hres with ⟨hb, _⟩ | ⟨h1, h2, h3, h4, h5, _⟩
    · exact absurd hb (by simp)
    · exact Or.inr ⟨m, rfl, by omega, h3,
        fun j hj hju => h4 j (Nat.zero_le j) (by omega) hju,
        fun j hj hju => h5 j (Nat.zero_le j) hj hju⟩

/-- Marking an unvisited index visited removes exactly it from the filter of
unvisited indices of a duplicate-free list. -/
theorem filter_setV_erase (vis : ℕ → Bool) (m : ℕ) (hm : vis m = false) :
    ∀ l : List ℕ, l.Nodup →
      l.filter (fun j => !setV vis m j) = (l.filter (fun j => !vis j)).erase m := by
  intro l hl
  induction l with
  | nil => rfl
  | cons x xs ih =>
    obtain ⟨hx, hxs⟩ := List.nodup_cons.mp hl
    by_cases hxm : x = m
    · rw [List.filter_cons_of_neg (by simp [setV, hxm]),
        List.filter_cons_of_pos (by simp [hxm, hm]), hxm, List.erase_cons_head]
      refine List.filter_congr ?_
      intro j hj
      have hjm : ¬j = m := fun hje => hx (by rw [hxm, ← hje]; exact hj)
      simp [setV, hjm]
    · by_cases hvx : vis x = false
      · rw [List.filter_cons_of_pos (by simp [setV, hxm, hvx]),
          List.filter_cons_of_pos (by simp [hvx]),
          List.erase_cons_tail (by simp [hxm]), ih hxs]
      · have hvxt : vis x = true := by revert hvx; cases vis x <;> simp
        rw [List.filter_cons_of_neg (by simp [setV, hxm, hvxt]),
          List.filter_cons_of_neg (by simp [hvxt]), ih hxs]

/-- The list of unvisited indices below `n`. -/
def unvisList (n : ℕ) (vis : ℕ → Bool) : List ℕ := (List.range n).filter (fun j => !vis j)

/-- Visiting an unvisited index erases it from the unvisited list. -/
theorem unvisList_setV (n : ℕ) (vis : ℕ → Bool) (m : ℕ) (hm : vis m = false) :
    unvisList n (setV vis m) = (unvisList n vis).erase m :=
  filter_setV_erase vis m hm (List.range n) (List.nodup_range n)

/-- The selection loop of `nearest_neighbor_order` visits exactly the
unvisited indices (in some order: a permutation) and every step is a
nearest-unvisited choice. -/
theorem nnAux_spec (D : ℕ → ℕ → ℚ) (n : ℕ) :
    ∀ (k cur : ℕ) (vis : ℕ → Bool), (unvisList n vis).length = k →
      (nnAux D n k cur vis).Perm (unvisList n vis)
      ∧ NNChain D n cur (fun j => vis j = false) (nnAux D n k cur vis) := by
  intro k
  induction k with
  | zero =>
    intro cur vis hlen
    have hnil : unvisList n vis = [] := List.length_eq_zero.mp hlen
    exact ⟨by rw [hnil]; exact List.Perm.refl _, NNChain.nil cur _⟩
  | succ k ih =>
    intro cur vis hlen
    have hex : ∃ j, j < n ∧ vis j = false := by
      rcases hne : unvisList n vis with _ | ⟨j, rest⟩
      · rw [hne] at hlen; simp at hlen
      · have hjmem : j ∈ unvisList n vis := by rw [hne]; exact List.mem_cons_self j rest
        have hj := List.mem_filter.mp hjmem
        exact ⟨j, List.mem_range.mp hj.1, by simpa using hj.2⟩
    rcases selectNext_spec D n cur vis with ⟨_, hall⟩ | ⟨m, hsel, hnear⟩
    · obtain ⟨j, hj1, hj2⟩ := hex
      rw [hall j hj1] at hj2
      exact absurd hj2 (by simp)
    · have hstep : nnAux D n (k + 1) cur vis = m :: nnAux D n k m (setV vis m) := by
        simp [nnAux, hsel]
      have hmn : m < n := hnear.1
      have hmu : vis m = false := hnear.2.1
      have hmem : m ∈ unvisList n vis :=
        List.mem_filter.mpr ⟨List.mem_range.mpr hmn, by simp [hmu]⟩
      have herase : unvisList n (setV vis m) = (unvisList n vis).erase m :=
        unvisList_setV n vis m hmu
      have hlen' : (unvisList n (setV vis m)).length = k := by
        rw [herase, List.length_erase_of_mem hmem, hlen]
        omega
      obtain ⟨hperm, hchain⟩ := ih m (setV vis m) hlen'
      constructor
      · rw [hstep]
        have h1 : (nnAux D n k m (setV vis m)).Perm ((unvisList n vis).erase m) :=
          herase ▸ hperm
        exact (h1.cons m).trans (List.perm_cons_erase hmem).symm
      · rw [hstep]
        refine NNChain.cons cur _ m _ hnear ?_
        have hpred : (fun j => setV vis m j = false) = (fun j => vis j = false ∧ j ≠ m) := by
          funext j
          by_cases hj : j = m
          · subst hj; simp [setV]
          · simp [setV, hj]
        rw [← hpred]
        exact hchain

/-- C4: for `n ≥ 1` and `start < n`, the tour built by
`nearest_neighbor_order` has length `n`, begins with `start`, visits every
index `0..n-1` exactly once (it is a permutation of `range n`), and each
successive element is a nearest not-yet-visited index with ties broken to
the lowest index (the strict `<` comparison keeps the first minimum found). -/
theorem c4_nearest_neighbor_spec (D : ℕ → ℕ → ℚ) (n start : ℕ)
    (hn : 1 ≤ n) (hs : start < n) :
    (nearest_neighbor_order D n start).length = n
    ∧ (nearest_neighbor_order D n start).head? = some start
    ∧ (nearest_neighbor_order D n start).Perm (List.range n)
    ∧ NNChain D n start (fun j => j ≠ start) (nearest_neighbor_order D n start).tail := by
  have hn0 : ¬n = 0 := by omega
  have hdef : nearest_neighbor_order D n start
      = start :: nnAux D n (n - 1) start (setV (fun _ => false) start) := by
    simp [nearest_neighbor_order, hn0]
  have hsm : start ∈ List.range n := List.mem_range.mpr hs
  have huv : unvisList n (setV (fun _ => false) start) = (List.range n).erase start := by
    unfold unvisList
    rw [filter_setV_erase (fun _ => false) start rfl (List.range n) (List.nodup_range n)]
    congr 1
    simp
  have hlen0 : (unvisList n (setV (fun _ => false) start)).length = n - 1 := by
    rw [huv, List.length_erase_of_mem hsm, List.length_range]
  obtain ⟨hperm, hchain⟩ := nnAux_spec D n (n - 1) start (setV (fun _ => false) start) hlen0
  have hlenaux : (nnAux D n (n - 1) start (setV (fun _ => false) start)).length = n - 1 := by
    rw [hperm.length_eq, hlen0]
  refine ⟨?_, ?_, ?_, ?_⟩
  · rw [hdef, List.length_cons, hlenaux]; omega
  · rw [hdef]; rfl
  · rw [hdef]
    have h1 : (nnAux D n (n - 1) start (setV (fun _ => false) start)).Perm
        ((List.range n).erase start) := huv ▸ hperm
    exact (h1.cons start).trans (List.perm_cons_erase hsm).symm
  · rw [hdef]
    have hpred : (fun j => setV (fun _ => false) start j = false) = (fun j => j ≠ start) := by
      funext j
      by_cases hj : j = start
      · subst hj; simp [setV]
      · simp [setV, hj]
    rw [← hpred]
    exact hchain

/-- C4 witness: concrete instance for the all-zero matrix, `n = 3`,
`start = 0`. -/
theorem c4_witness :
    1 ≤ 3 ∧ 0 < 3
    ∧ ((nearest_neighbor_order (fun _ _ => (0 : ℚ)) 3 0).length = 3
      ∧ (nearest_neighbor_order (fun _ _ => (0 : ℚ)) 3 0).head? = some 0
      ∧ (nearest_neighbor_order (fun _ _ => (0 : ℚ)) 3 0).Perm (List.range 3)
      ∧ NNChain (fun _ _ => (0 : ℚ)) 3 0 (fun j => j ≠ 0)
          (nearest_neighbor_order (fun _ _ => (0 : ℚ)) 3 0).tail) :=
  ⟨by norm_num, by norm_num,
    c4_nearest_neighbor_spec (fun _ _ => (0 : ℚ)) 3 0 (by norm_num) (by norm_num)⟩

/-! ## 2-opt never lengthens the tour (C3) -/

/-- Unfolding equation for the open-path length. -/
theorem total_distance_cons_cons (D : ℕ → ℕ → ℚ) (x y : ℕ) (l : List ℕ) :
    total_distance D (x :: y :: l) = D x y + total_distance D (y :: l) := rfl

/-- The open-path length of a singleton is zero. -/
theorem total_distance_single (D : ℕ → ℕ → ℚ) (y : ℕ) : total_distance D [y] = 0 := rfl

/-- Splitting the open-path length at an interior waypoint. -/
theorem total_distance_split (D : ℕ → ℕ → ℚ) :
    ∀ (xs : List ℕ) (y : ℕ) (zs : List ℕ),
      total_distance D (xs ++ y :: zs)
        = total_distance D (xs ++ [y]) + total_distance D (y :: zs) := by
  intro xs
  induction xs with
  | nil =>
    intro y zs
    simp only [List.nil_append, total_distance_single]
    ring
  | cons x xs ih =>
    intro y zs
    cases xs with
    | nil =>
      simp only [List.cons_append, List.nil_append, total_distance_cons_cons,
        total_distance_single]
      ring
    | cons x' xs' =>
      simp only [List.cons_append, total_distance_cons_cons]
      have h1 : x' :: (xs' ++ y :: zs) = (x' :: xs') ++ y :: zs := by simp
      have h2 : x' :: (xs' ++ [y]) = (x' :: xs') ++ [y] := by simp
      rw [h1, h2, ih y zs]
      ring

/-- For a symmetric matrix the open-path length is direction-independent. -/
theorem total_distance_reverse (D : ℕ → ℕ → ℚ) (hsym : ∀ x y, D x y = D y x) :
    ∀ l : List ℕ, total_distance D l.reverse = total_distance D l := by
  intro l
  induction l with
  | nil => rfl
  | cons x l ih =>
    cases l with
    | nil => rfl
    | cons y l' =>
      have h1 : (x :: y :: l').reverse = l'.reverse ++ y :: [x] := by simp
      rw [h1, total_distance_split D l'.reverse y [x]]
      have h2 : l'.reverse ++ [y] = (y :: l').reverse := by simp
      rw [h2, ih, total_distance_cons_cons, total_distance_cons_cons,
        total_distance_single, hsym y x]
      ring


/-- The heart of the 2-opt step: replacing edges `(a,b),(c,d)` by
`(a,c),(b,d)` and reversing the enclosed segment does not increase the
open-path length when the exchange condition holds, for a symmetric matrix. -/
theorem total_distance_swap_le (D : ℕ → ℕ → ℚ) (hsym : ∀ x y, D x y = D y x)
    (A M B : List ℕ) (a b c d : ℕ)
    (hcond : D a c + D b d < D a b + D c d) :
    total_distance D (A ++ a :: c :: (M.reverse ++ b :: d :: B))
      ≤ total_distance D (A ++ a :: b :: (M ++ c :: d :: B)) := by
  have hmid : total_distance D (c :: (M.reverse ++ [b]))
      = total_distance D (b :: (M ++ [c])) := by
    have hrev : (b :: (M ++ [c])).reverse = c :: (M.reverse ++ [b]) := by simp
    rw [← hrev, total_distance_reverse D hsym]
  have eL : total_distance D (A ++ a :: c :: (M.reverse ++ b :: d :: B))
      = total_distance D (A ++ [a])
        + (D a c + total_distance D (b :: (M ++ [c])) + D b d)
        + total_distance D (d :: B) := by
    rw [total_distance_split D A a (c :: (M.reverse ++ b :: d :: B))]
    have h1 : a :: c :: (M.reverse ++ b :: d :: B) = (a :: c :: M.reverse) ++ b :: d :: B := by
      simp
    rw [h1, total_distance_split D (a :: c :: M.reverse) b (d :: B)]
    have h2 : (a :: c :: M.reverse) ++ [b] = a :: c :: (M.reverse ++ [b]) := by simp
    rw [h2, total_distance_cons_cons D a c (M.reverse ++ [b]),
      total_distance_cons_cons D b d B, hmid]
    ring
  have eR : total_distance D (A ++ a :: b :: (M ++ c :: d :: B))
      = total_distance D (A ++ [a])
        + (D a b + total_distance D (b :: (M ++ [c])) + D c d)
        + total_distance D (d :: B) := by
    rw [total_distance_split D A a (b :: (M ++ c :: d :: B))]
    have h1 : a :: b :: (M ++ c :: d :: B) = (a :: b :: M) ++ c :: d :: B := by simp
    rw [h1, total_distance_split D (a :: b :: M) c (d :: B)]
    have h2 : (a :: b :: M) ++ [c] = a :: b :: (M ++ [c]) := by simp
    rw [h2, total_distance_cons_cons D a b (M ++ [c]), total_distance_cons_cons D c d B]
    ring
  rw [eL, eR]
  linarith

/-- Valid 2-opt indices decompose the order into a prefix, the four edge
endpoints, the enclosed middle and a suffix; `reverseSegment` reverses
exactly the enclosed part. -/
theorem reverseSegment_decomp (ord : List ℕ) (i j : ℕ)
    (hi : 1 ≤ i) (hij : i < j) (hj : j + 1 < ord.length) :
    ∃ A M B,
      ord = A ++ (ord.getD (i - 1) 0) :: (ord.getD i 0)
          :: (M ++ (ord.getD j 0) :: (ord.getD (j + 1) 0) :: B)
      ∧ reverseSegment ord i j
        = A ++ (ord.getD (i - 1) 0) :: (ord.getD j 0)
            :: (M.reverse ++ (ord.getD i 0) :: (ord.getD (j + 1) 0) :: B) := by
  have hi1 : i - 1 < ord.length := by omega
  have hii : i < ord.length := by omega
  have hjj : j < ord.length := by omega
  have hgd : ∀ (k : ℕ) (h : k < ord.length), ord.getD k 0 = ord[k] := by
    intro k h
    rw [List.getD_eq_getElem?_getD, List.getElem?_eq_getElem h]
    rfl
  have htake : ord.take i = ord.take (i - 1) ++ [ord.getD (i - 1) 0] := by
    have hi' : i = (i - 1) + 1 := by omega
    conv_lhs => rw [hi']
    rw [List.take_succ, List.getElem?_eq_getElem hi1]
    simp [List.getD_eq_getElem?_getD, List.getElem?_eq_getElem hi1]
  have hdropi : ord.drop i = ord.getD i 0 :: ord.drop (i + 1) := by
    rw [List.drop_eq_getElem_cons hii, hgd i hii]
  have hdropj : ord.drop (j + 1) = ord.getD (j + 1) 0 :: ord.drop (j + 2) := by
    rw [List.drop_eq_getElem_cons hj, hgd (j + 1) hj]
  have hmid : (ord.drop (i + 1)).take (j - i)
      = (ord.drop (i + 1)).take (j - i - 1) ++ [ord.getD j 0] := by
    have ht : j - i = (j - i - 1) + 1 := by omega
    conv_lhs => rw [ht]
    rw [List.take_succ]
    have hq : (ord.drop (i + 1))[j - i - 1]? = some (ord.getD j 0) := by
      rw [List.getElem?_drop]
      have hq2 : i + 1 + (j - i - 1) = j := by omega
      rw [hq2, List.getElem?_eq_getElem hjj, hgd j hjj]
    rw [hq]
    rfl
  have hseg : (ord.drop i).take (j + 1 - i)
      = ord.getD i 0 :: ((ord.drop (i + 1)).take (j - i - 1) ++ [ord.getD j 0]) := by
    have ht : j + 1 - i = (j - i) + 1 := by omega
    conv_lhs => rw [ht]
    rw [hdropi, List.take_succ_cons, hmid]
  have hdropsplit : ord.drop i = (ord.drop i).take (j + 1 - i) ++ ord.drop (j + 1) := by
    have h5 : (ord.drop i).drop (j + 1 - i) = ord.drop (j + 1) := by
      rw [List.drop_drop]
      have hq3 : i + (j + 1 - i) = j + 1 := by omega
      rw [hq3]
    rw [← h5, List.take_append_drop]
  refine ⟨ord.take (i - 1), (ord.drop (i + 1)).take (j - i - 1), ord.drop (j + 2), ?_, ?_⟩
  · conv_lhs => rw [← List.take_append_drop i ord]
    rw [htake, hdropsplit, hseg, hdropj]
    simp
  · unfold reverseSegment
    rw [htake, hseg, hdropj]
    simp

/-- One inner-loop step of 2-opt on valid indices never increases the
open-path length and preserves the length of the order. -/
theorem twoOptSwap_le (D : ℕ → ℕ → ℚ) (hsym : ∀ x y, D x y = D y x) (ord : List ℕ) (i j : ℕ)
    (hi : 1 ≤ i) (hij : i < j) (hj : j + 1 < ord.length) :
    total_distance D (twoOptSwap D ord i j).1 ≤ total_distance D ord
    ∧ (twoOptSwap D ord i j).1.length = ord.length := by
  simp only [twoOptSwap]
  split
  · next hc =>
    obtain ⟨A, M, B, hord, hrev⟩ := reverseSegment_decomp ord i j hi hij hj
    constructor
    · show total_distance D (reverseSegment ord i j) ≤ total_distance D ord
      rw [hrev]
      conv_rhs => rw [hord]
      exact total_distance_swap_le D hsym A M B _ _ _ _ hc
    · show (reverseSegment ord i j).length = ord.length
      rw [hrev]
      conv_rhs => rw [hord]
      simp
  · exact ⟨le_refl _, rfl⟩

/-- Bounds satisfied by every index pair of a sweep. -/
theorem pairList_mem (n : ℕ) (p : ℕ × ℕ) (hp : p ∈ pairList n) :
    1 ≤ p.1 ∧ p.1 < p.2 ∧ p.2 + 1 < n := by
  unfold pairList at hp
  rw [List.mem_flatMap] at hp
  obtain ⟨i, hi, hp2⟩ := hp
  rw [List.mem_map] at hp2
  obtain ⟨j, hj, rfl⟩ := hp2
  rw [List.mem_range'_1] at hi hj
  simp only []
  omega

/-- Folding 2-opt steps over any list of valid index pairs never increases
the open-path length and preserves the length of the order. -/
theorem sweepFold_le (D : ℕ → ℕ → ℚ) (hsym : ∀ x y, D x y = D y x) (n : ℕ) :
    ∀ ps : List (ℕ × ℕ), (∀ p ∈ ps, 1 ≤ p.1 ∧ p.1 < p.2 ∧ p.2 + 1 < n) →
      ∀ st : List ℕ × Bool, st.1.length = n →
        total_distance D ((ps.foldl (fun st p =>
            let r := twoOptSwap D st.1 p.1 p.2
            (r.1, st.2 || r.2)) st).1) ≤ total_distance D st.1
        ∧ ((ps.foldl (fun st p =>
            let r := twoOptSwap D st.1 p.1 p.2
            (r.1, st.2 || r.2)) st).1).length = n := by
  intro ps
  induction ps with
  | nil => exact fun _ st hst => ⟨le_refl _, hst⟩
  | cons p ps ih =>
    intro hv st hst
    simp only [List.foldl_cons]
    have hp := hv p (List.mem_cons_self p ps)
    have hjlt : p.2 + 1 < st.1.length := by rw [hst]; exact hp.2.2
    obtain ⟨hle, hlen⟩ := twoOptSwap_le D hsym st.1 p.1 p.2 hp.1 hp.2.1 hjlt
    have hnext := ih (fun q hq => hv q (List.mem_cons_of_mem p hq))
      ((twoOptSwap D st.1 p.1 p.2).1, st.2 || (twoOptSwap D st.1 p.1 p.2).2)
      (by rw [hlen, hst])
    exact ⟨le_trans hnext.1 hle, hnext.2⟩

/-- A full sweep never increases the open-path length and preserves the
length of the order. -/
theorem sweep_le (D : ℕ → ℕ → ℚ) (hsym : ∀ x y, D x y = D y x) (n : ℕ) (ord : List ℕ)
    (h : ord.length = n) :
    total_distance D (sweep D n ord).1 ≤ total_distance D ord
    ∧ (sweep D n ord).1.length = n :=
  sweepFold_le D hsym n (pairList n) (fun p hp => pairList_mem n p hp) (ord, false) h

/-- The sweep loop never increases the open-path length. -/
theorem twoOptLoop_le (D : ℕ → ℕ → ℚ) (hsym : ∀ x y, D x y = D y x) (n : ℕ) :
    ∀ (fuel : ℕ) (ord : List ℕ), ord.length = n →
      total_distance D (twoOptLoop D n fuel ord) ≤ total_distance D ord := by
  intro fuel
  induction fuel with
  | zero => exact fun ord _ => le_refl _
  | succ fuel ih =>
    intro ord h
    simp only [twoOptLoop]
    obtain ⟨hle, hlen⟩ := sweep_le D hsym n ord h
    split
    · exact le_trans (ih _ hlen) hle
    · exact hle

/-- C3: for every tour and every symmetric non-negative distance matrix,
the tour returned by `two_opt` has open-path length at most that of the
input tour (for every fuel value of the loop model). -/
theorem c3_two_opt_total_le (D : ℕ → ℕ → ℚ)
    (hsym : ∀ x y, D x y = D y x) (hnn : ∀ x y, 0 ≤ D x y)
    (ord : List ℕ) (fuel : ℕ) :
    total_distance D (two_opt D fuel ord) ≤ total_distance D ord := by
  unfold two_opt
  split
  · exact le_refl _
  · exact twoOptLoop_le D hsym ord.length fuel ord rfl

/-- C3 witness: the all-zero matrix is symmetric and non-negative, and the
theorem applies to the concrete tour `[0, 1, 2, 3]`. -/
theorem c3_witness :
    (∀ x y : ℕ, (fun _ _ : ℕ => (0 : ℚ)) x y = (fun _ _ : ℕ => (0 : ℚ)) y x)
    ∧ (∀ x y : ℕ, 0 ≤ (fun _ _ : ℕ => (0 : ℚ)) x y)
    ∧ total_distance (fun _ _ : ℕ => (0 : ℚ))
        (two_opt (fun _ _ : ℕ => (0 : ℚ)) 2 [0, 1, 2, 3])
      ≤ total_distance (fun _ _ : ℕ => (0 : ℚ)) [0, 1, 2, 3] :=
  ⟨fun _ _ => rfl, fun _ _ => le_refl 0,
    c3_two_opt_total_le (fun _ _ : ℕ => (0 : ℚ)) (fun _ _ => rfl) (fun _ _ => le_refl 0)
      [0, 1, 2, 3] 2⟩

/-! ## The radius search of `PlaceRadiusView` (C5)

The geodesy is real-valued (`ℝ` models Python floats here); these
definitions render the view's local `within_radius` closure (the same
haversine formula as `places/utils.py`) and the bounding-box pre-filter of
`get_queryset`. -/

open Classical in
/-- Python's `math.atan2` (full quadrant case analysis; the haversine code
only ever reaches the `0 < x` branch). -/
noncomputable def atan2 (y x : ℝ) : ℝ :=
  if 0 < x then Real.arctan (y / x)
  else if x < 0 ∧ 0 ≤ y then Real.arctan (y / x) + Real.pi
  else if x < 0 ∧ y < 0 then Real.arctan (y / x) - Real.pi
  else if x = 0 ∧ 0 < y then Real.pi / 2
  else if x = 0 ∧ y < 0 then -(Real.pi / 2)
  else 0

/-- Python's `math.radians`. -/
noncomputable def radiansR (deg : ℝ) : ℝ := deg * Real.pi / 180

/-- The haversine distance computed by the view's `within_radius` closure:
Earth radius 6371 km, `c = 2 * atan2(sqrt a, sqrt (1 - a))`. -/
noncomputable def haversineDistR (lat lon plat plon : ℝ) : ℝ :=
  let dlat := radiansR (plat - lat)
  let dlon := radiansR (plon - lon)
  let a := Real.sin (dlat / 2) ^ 2
    + Real.cos (radiansR lat) * Real.cos (radiansR plat) * Real.sin (dlon / 2) ^ 2
  let c := 2 * atan2 (Real.sqrt a) (Real.sqrt (1 - a))
  6371 * c

/-- `within_radius` from `PlaceRadiusView.get_queryset`: the exact geodesic
test `R * c <= radius`. -/
def within_radius (lat lon plat plon radius : ℝ) : Prop :=
  haversineDistR lat lon plat plon ≤ radius

/-- `delta_lat = radius / 111.0` of the bounding-box pre-filter. -/
noncomputable def delta_lat (radius : ℝ) : ℝ := radius / 111.0

open Classical in
/-- `delta_lon = radius / (111.0 * max(0.0001, cos(radians(lat))))` of the
bounding-box pre-filter. -/
noncomputable def delta_lon (radius lat : ℝ) : ℝ :=
  radius / (111.0 * max 0.0001 (Real.cos (radiansR lat)))

/-- The bounding-box pre-filter of `PlaceRadiusView.get_queryset`:
`latitude` within `lat ± delta_lat` and `longitude` within
`lon ± delta_lon`. -/
def inBBox (lat lon radius plat plon : ℝ) : Prop :=
  lat - delta_lat radius ≤ plat ∧ plat ≤ lat + delta_lat radius
  ∧ lon - delta_lon radius lat ≤ plon ∧ plon ≤ lon + delta_lon radius lat

/-- On the arguments produced by the haversine formula (`0 ≤ a ≤ 1`),
`atan2 (sqrt a) (sqrt (1 - a))` is `arcsin (sqrt a)`. -/
theorem atan2_sqrt_eq_arcsin (a : ℝ) (h0 : 0 ≤ a) (h1 : a ≤ 1) :
    atan2 (Real.sqrt a) (Real.sqrt (1 - a)) = Real.arcsin (Real.sqrt a) := by
  rcases lt_or_eq_of_le h1 with hlt | heq
  · have hx : 0 < Real.sqrt (1 - a) := Real.sqrt_pos.mpr (by linarith)
    have hstep : atan2 (Real.sqrt a) (Real.sqrt (1 - a))
        = Real.arctan (Real.sqrt a / Real.sqrt (1 - a)) := by
      unfold atan2
      rw [if_pos hx]
    rw [hstep]
    have hmem : Real.sqrt a ∈ Set.Ioo (-(1 : ℝ)) 1 := by
      constructor
      · have := Real.sqrt_nonneg a
        linarith
      · rw [← Real.sqrt_one]
        exact (Real.sqrt_lt_sqrt_iff h0).mpr hlt
    rw [Real.arcsin_eq_arctan hmem, Real.sq_sqrt h0]
  · subst heq
    have h10 : Real.sqrt (1 - 1) = 0 := by norm_num
    have h11 : Real.sqrt (1 : ℝ) = 1 := Real.sqrt_one
    rw [h10, h11]
    unfold atan2
    rw [if_neg (lt_irrefl 0), if_neg (by simp), if_neg (by norm_num),
      if_pos (by norm_num)]
    rw [Real.arcsin_one]

/-- For `|x| ≤ π`, `|sin x| = sin |x|`. -/
theorem abs_sin_eq_sin_abs (x : ℝ) (h1 : -Real.pi ≤ x) (h2 : x ≤ Real.pi) :
    |Real.sin x| = Real.sin |x| := by
  rcases abs_cases x with ⟨he, hx⟩ | ⟨he, hx⟩
  · rw [he]
    exact abs_of_nonneg (Real.sin_nonneg_of_nonneg_of_le_pi hx h2)
  · rw [he, Real.sin_neg]
    have hs : Real.sin x ≤ 0 := Real.sin_nonpos_of_nonnpos_of_neg_pi_le (le_of_lt hx) h1
    exact abs_of_nonpos hs

/-- C5 counterexample: the claim says the bounding-box pre-filter never
excludes a candidate whose exact distance is within the radius.  For the
center `(60, 0)` with radius `3000` km, the candidate `(60, 54.8)` passes
the exact haversine test (its distance is about `2958` km), yet its
longitude offset `54.8°` exceeds `delta_lon = 3000 / (111 * cos 60°) =
54.054…°`, so the bounding box excludes it: the pre-filter is lossy. -/
theorem c5_counterexample :
    within_radius 60 0 60 54.8 3000 ∧ ¬inBBox 60 0 3000 60 54.8 := by
  have hr60 : radiansR 60 = Real.pi / 3 := by unfold radiansR; ring
  have hcos : Real.cos (radiansR 60) = 1 / 2 := by rw [hr60]; exact Real.cos_pi_div_three
  constructor
  · unfold within_radius
    simp only [haversineDistR]
    have h1 : radiansR (60 - 60) = 0 := by unfold radiansR; ring
    have h2 : radiansR (54.8 - 0) / 2 = 137 * Real.pi / 900 := by
      unfold radiansR
      have h548 : (54.8 : ℝ) - 0 = 548 / 10 := by norm_num
      rw [h548]
      ring
    rw [h1, h2, hcos]
    have hsin0 : Real.sin ((0 : ℝ) / 2) = 0 := by norm_num
    rw [hsin0]
    set w := 137 * Real.pi / 900 with hw
    have hpiL := Real.pi_gt_d6
    have hpiU := Real.pi_lt_d6
    have hwpos : 0 < w := by rw [hw]; positivity
    have hwLB : (0.478220 : ℝ) < w := by rw [hw]; nlinarith
    have hwUB : w < 0.4782203 := by rw [hw]; nlinarith
    have hsnn : 0 ≤ Real.sin w / 2 := by
      have hple : w ≤ Real.pi := by nlinarith
      have := Real.sin_nonneg_of_nonneg_of_le_pi (le_of_lt hwpos) hple
      linarith
    have ha : (0 : ℝ) ^ 2 + 1 / 2 * (1 / 2) * Real.sin w ^ 2 = (Real.sin w / 2) ^ 2 := by
      ring
    rw [ha]
    have ha0 : 0 ≤ (Real.sin w / 2) ^ 2 := sq_nonneg _
    have ha1 : (Real.sin w / 2) ^ 2 ≤ 1 := by
      have := Real.sin_sq_le_one w
      nlinarith
    rw [atan2_sqrt_eq_arcsin _ ha0 ha1, Real.sqrt_sq hsnn]
    have habs : |w| ≤ 1 := by rw [abs_of_pos hwpos]; linarith
    have hb1 := Real.sin_bound habs
    rw [abs_of_pos hwpos, abs_le] at hb1
    have h3 : (0.478220 : ℝ) ^ 3 ≤ w ^ 3 :=
      pow_le_pow_left₀ (by norm_num) hwLB.le 3
    have h4 : w ^ 4 ≤ (0.4782203 : ℝ) ^ 4 :=
      pow_le_pow_left₀ (le_of_lt hwpos) hwUB.le 4
    have hc3 : (0.478220 : ℝ) ^ 3 = 0.109366220856248 := by norm_num
    have hc4 : (0.4782203 : ℝ) ^ 4 = 0.0523012453774634410681837681 := by norm_num
    have hsinw : Real.sin w ≤ 0.46272 := by
      rw [hc3] at h3
      rw [hc4] at h4
      linarith [hb1.2]
    have hbpos : (0 : ℝ) < 1500 / 6371 := by norm_num
    have habs2 : |(1500 / 6371 : ℝ)| ≤ 1 := by rw [abs_of_pos hbpos]; norm_num
    have hb2 := Real.sin_bound habs2
    rw [abs_of_pos hbpos, abs_le] at hb2
    have hsinb : (0.233106 : ℝ) ≤ Real.sin (1500 / 6371) := by
      have hd3 : ((1500 / 6371 : ℝ)) ^ 3 ≤ 0.0130524746 := by norm_num
      have hd4 : ((1500 / 6371 : ℝ)) ^ 4 ≤ 0.0030731257 := by norm_num
      linarith [hb2.1]
    have harc : Real.arcsin (Real.sin w / 2) ≤ 1500 / 6371 := by
      rw [Real.arcsin_le_iff_le_sin
        (Set.mem_Icc.mpr ⟨by linarith [Real.neg_one_le_sin w], by linarith [Real.sin_le_one w]⟩)
        (Set.mem_Icc.mpr ⟨by linarith, by linarith⟩)]
      linarith
    linarith
  · intro hbox
    have h4 := hbox.2.2.2
    unfold delta_lon at h4
    rw [hcos, max_eq_right (by norm_num : (0.0001 : ℝ) ≤ 1 / 2)] at h4
    norm_num at h4

/-- The haversine distance dominates the pure latitude separation: for
latitudes within `[-90, 90]`, `111 * |Δlat°|` kilometres never exceeds the
computed distance (`6371 * π / 180 ≈ 111.19` km per degree of latitude). -/
theorem haversine_ge_lat (lat lon plat plon : ℝ)
    (hl1 : -90 ≤ lat) (hl2 : lat ≤ 90) (hp1 : -90 ≤ plat) (hp2 : plat ≤ 90) :
    111 * |plat - lat| ≤ haversineDistR lat lon plat plon := by
  have hpi := Real.pi_gt_d6
  have hpipos := Real.pi_pos
  simp only [haversineDistR]
  set t := radiansR (plat - lat) / 2 with htdef
  set u := radiansR (plon - lon) / 2 with hudef
  have hb1 : -(Real.pi / 2) ≤ radiansR lat := by
    unfold radiansR
    nlinarith [mul_nonneg (le_of_lt hpipos) (by linarith : (0 : ℝ) ≤ lat + 90)]
  have hb2 : radiansR lat ≤ Real.pi / 2 := by
    unfold radiansR
    nlinarith [mul_nonneg (le_of_lt hpipos) (by linarith : (0 : ℝ) ≤ 90 - lat)]
  have hb3 : -(Real.pi / 2) ≤ radiansR plat := by
    unfold radiansR
    nlinarith [mul_nonneg (le_of_lt hpipos) (by linarith : (0 : ℝ) ≤ plat + 90)]
  have hb4 : radiansR plat ≤ Real.pi / 2 := by
    unfold radiansR
    nlinarith [mul_nonneg (le_of_lt hpipos) (by linarith : (0 : ℝ) ≤ 90 - plat)]
  have hc1 : 0 ≤ Real.cos (radiansR lat) := Real.cos_nonneg_of_mem_Icc ⟨hb1, hb2⟩
  have hc2 : 0 ≤ Real.cos (radiansR plat) := Real.cos_nonneg_of_mem_Icc ⟨hb3, hb4⟩
  set A := Real.sin t ^ 2
      + Real.cos (radiansR lat) * Real.cos (radiansR plat) * Real.sin u ^ 2 with hAdef
  have hprodnn : 0 ≤ Real.cos (radiansR lat) * Real.cos (radiansR plat) * Real.sin u ^ 2 :=
    mul_nonneg (mul_nonneg hc1 hc2) (sq_nonneg _)
  have hA0 : 0 ≤ A := by rw [hAdef]; positivity
  have hAlow : Real.sin t ^ 2 ≤ A := by rw [hAdef]; linarith
  have h2t : 2 * t = radiansR plat - radiansR lat := by
    rw [htdef]
    unfold radiansR
    ring
  have hprod : Real.cos (radiansR lat) * Real.cos (radiansR plat) ≤ Real.cos t ^ 2 := by
    have hadd := Real.cos_add (radiansR lat) (radiansR plat)
    have hsub := Real.cos_sub (radiansR lat) (radiansR plat)
    have hsq := Real.cos_sq t
    have hneg : radiansR lat - radiansR plat = -(2 * t) := by rw [h2t]; ring
    rw [hneg, Real.cos_neg] at hsub
    have hle1 := Real.cos_le_one (radiansR lat + radiansR plat)
    linarith
  have hA1 : A ≤ 1 := by
    have hsu := Real.sin_sq_le_one u
    have hst := Real.sin_sq_add_cos_sq t
    have hcc : Real.cos (radiansR lat) * Real.cos (radiansR plat) * Real.sin u ^ 2
        ≤ Real.cos t ^ 2 * Real.sin u ^ 2 :=
      mul_le_mul_of_nonneg_right hprod (sq_nonneg _)
    have hcc2 : Real.cos t ^ 2 * Real.sin u ^ 2 ≤ Real.cos t ^ 2 := by
      nlinarith [sq_nonneg (Real.cos t), sq_nonneg (Real.sin u)]
    rw [hAdef]
    linarith
  rw [atan2_sqrt_eq_arcsin A hA0 hA1]
  have ht_eq : t = (plat - lat) * (Real.pi / 360) := by
    rw [htdef]
    unfold radiansR
    ring
  have habst : |t| = |plat - lat| * (Real.pi / 360) := by
    rw [ht_eq, abs_mul, abs_of_pos (by positivity : (0 : ℝ) < Real.pi / 360)]
  have htpi2 : |t| ≤ Real.pi / 2 := by
    have habsd : |plat - lat| ≤ 180 := by
      rw [abs_le]
      constructor <;> linarith
    rw [habst]
    nlinarith
  have htpi : -Real.pi ≤ t ∧ t ≤ Real.pi := by
    have := abs_le.mp htpi2
    constructor <;> linarith
  have hmono : Real.arcsin |Real.sin t| ≤ Real.arcsin (Real.sqrt A) := by
    apply Real.monotone_arcsin
    rw [← Real.sqrt_sq_eq_abs]
    exact Real.sqrt_le_sqrt hAlow
  have habs_sin : |Real.sin t| = Real.sin |t| := abs_sin_eq_sin_abs t htpi.1 htpi.2
  have harc_sin : Real.arcsin (Real.sin |t|) = |t| :=
    Real.arcsin_sin (by linarith [abs_nonneg t]) htpi2
  have hcore : |t| ≤ Real.arcsin (Real.sqrt A) := by
    rw [← harc_sin, ← habs_sin]
    exact hmono
  have hfac : (111 : ℝ) ≤ 12742 * (Real.pi / 360) := by nlinarith
  have hstep1 : 111 * |plat - lat| ≤ 12742 * (Real.pi / 360) * |plat - lat| :=
    mul_le_mul_of_nonneg_right hfac (abs_nonneg _)
  have hstep2 : 12742 * (Real.pi / 360) * |plat - lat| = 12742 * |t| := by
    rw [habst]
    ring
  have hstep3 : 12742 * |t| ≤ 12742 * Real.arcsin (Real.sqrt A) := by linarith
  linarith

/-- C5 (amended): the bounding-box pre-filter is only an approximation —
the exact haversine test is authoritative, and the longitude box can
exclude in-radius candidates (see the counterexample) — but the latitude
bounds alone never exclude an in-radius candidate: whenever a candidate is
within `radius` km of the center (latitudes in `[-90, 90]`), its latitude
lies within `center ± delta_lat`. -/
theorem c5_lat_prefilter_conservative (lat lon plat plon radius : ℝ)
    (hl1 : -90 ≤ lat) (hl2 : lat ≤ 90) (hp1 : -90 ≤ plat) (hp2 : plat ≤ 90)
    (hin : within_radius lat lon plat plon radius) :
    lat - delta_lat radius ≤ plat ∧ plat ≤ lat + delta_lat radius := by
  have hge := haversine_ge_lat lat lon plat plon hl1 hl2 hp1 hp2
  unfold within_radius at hin
  have habs : 111 * |plat - lat| ≤ radius := le_trans hge hin
  have hd : delta_lat radius = radius / 111 := by
    unfold delta_lat
    norm_num
  rw [hd]
  have habs2 : |plat - lat| ≤ radius / 111 := by linarith
  have hb := abs_le.mp habs2
  constructor <;> linarith [hb.1, hb.2]

/-- C5 witness: the coincident pair `(0,0)` is within radius `1` km (its
haversine distance is `0`), and the amended theorem places its latitude
inside the latitude box. -/
theorem c5_witness :
    ((-90 : ℝ) ≤ 0 ∧ (0 : ℝ) ≤ 90 ∧ within_radius 0 0 0 0 1)
    ∧ ((0 : ℝ) - delta_lat 1 ≤ 0 ∧ (0 : ℝ) ≤ 0 + delta_lat 1) := by
  have hatan : atan2 0 1 = 0 := by
    unfold atan2
    rw [if_pos (by norm_num : (0 : ℝ) < 1)]
    norm_num
  have hwr : within_radius 0 0 0 0 1 := by
    unfold within_radius
    simp only [haversineDistR]
    have h0 : radiansR (0 - 0) = 0 := by unfold radiansR; ring
    have h0' : radiansR 0 = 0 := by unfold radiansR; ring
    rw [h0, h0']
    norm_num [Real.sqrt_one, hatan]
  exact ⟨⟨by norm_num, by norm_num, hwr⟩,
    c5_lat_prefilter_conservative 0 0 0 0 1 (by norm_num) (by norm_num) (by norm_num)
      (by norm_num) hwr⟩
